import Mathlib

/-!
Shallow embedding of the NLU extraction pipeline of
`src/nlu/extractor.py` (sailpoint-rule-generator).

Strings are modelled as `List Char`.  Python's `str.lower()` is modelled
character-wise on the ASCII range (the keyword sets involved are ASCII).
Python's substring operator `needle in hay` is modelled by `pyIn`.
-/

namespace SailpointNLU

/-- Coerce a Lean string literal to our `List Char` representation. -/
def s2l (s : String) : List Char := s.data

/-- Python `str.lower()`, modelled on the ASCII range (character-wise). -/
def lower (t : List Char) : List Char := t.map Char.toLower

/-- `listStartsWith needle hay` : does `hay` start with `needle`? -/
def listStartsWith : List Char → List Char → Bool
  | [], _ => true
  | _ :: _, [] => false
  | a :: as, b :: bs => a == b && listStartsWith as bs

/-- Python's substring test `needle in hay`. -/
def pyIn (needle : List Char) : List Char → Bool
  | [] => listStartsWith needle []
  | c :: rest => listStartsWith needle (c :: rest) || pyIn needle rest

/-- `Intent` enumeration from `extractor.py`. -/
inductive Intent where
  | GENERATE_RULE
  | MODIFY_RULE
  | EXPLAIN_RULE
deriving DecidableEq, Repr

/-- `RuleType` enumeration from `src/models/rules.py`. -/
inductive RuleType where
  | CORRELATION
  | BUILD_MAP
  | PRE_ITERATE
deriving DecidableEq, Repr

/-- The generate-verb keyword list of `_extract_intent`. -/
def genVerbs : List (List Char) := [s2l "create", s2l "generate", s2l "make", s2l "build"]

/-- The modify-verb keyword list of `_extract_intent`. -/
def modVerbs : List (List Char) := [s2l "change", s2l "modify", s2l "update", s2l "amend"]

/-- The explain-phrase keyword list of `_extract_intent`. -/
def explainPhrases : List (List Char) := [s2l "explain", s2l "describe", s2l "what is"]

/-- `_extract_intent` from `extractor.py`: lower-case the text, then test the
three keyword sets in priority order, first match wins. -/
def _extract_intent (text : List Char) : Option Intent :=
  let text_lower := lower text
  if genVerbs.any (fun verb => pyIn verb text_lower) then
    some Intent.GENERATE_RULE
  else if modVerbs.any (fun verb => pyIn verb text_lower) then
    some Intent.MODIFY_RULE
  else if explainPhrases.any (fun phrase => pyIn phrase text_lower) then
    some Intent.EXPLAIN_RULE
  else
    none

/-- `_extract_rule_type` from `extractor.py`: lower-case the text, then check
"correlation", then "build map"/"buildmap", then "pre-iterate"/"preiterate". -/
def _extract_rule_type (text : List Char) : Option RuleType :=
  let text_lower := lower text
  if pyIn (s2l "correlation") text_lower then
    some RuleType.CORRELATION
  else if pyIn (s2l "build map") text_lower || pyIn (s2l "buildmap") text_lower then
    some RuleType.BUILD_MAP
  else if pyIn (s2l "pre-iterate") text_lower || pyIn (s2l "preiterate") text_lower then
    some RuleType.PRE_ITERATE
  else
    none

/-- A spaCy token as consumed by `_extract_application`: its literal text,
its dependency label `dep_`, the literal text of its head token, and its
index `i` in the document. -/
structure SToken where
  text : List Char
  dep : List Char
  headText : List Char
  i : Nat
deriving DecidableEq, Repr

/-- A spaCy noun chunk as consumed by `_extract_application`: start/end token
indices of its span, its full text, and the literal text of the head of its
root token. -/
structure NounChunk where
  start : Nat
  stop : Nat
  text : List Char
  rootHeadText : List Char
deriving DecidableEq, Repr

/-- The annotated linguistic structure (`spacy.tokens.Doc`) as consumed by
`_extract_application`: the token sequence and the noun-chunk sequence. -/
structure Doc where
  tokens : List SToken
  noun_chunks : List NounChunk
deriving DecidableEq, Repr

/-- The preposition set `{"for", "from", "on"}` of `_extract_application`
(membership is the only operation used on it). -/
def prepositions : List (List Char) := [s2l "for", s2l "from", s2l "on"]

/-- The inner chunk loop of `_extract_application`: return the text of the
first noun chunk whose span contains index `i`, if any. -/
def chunkContaining (i : Nat) : List NounChunk → Option (List Char)
  | [] => none
  | chunk :: rest =>
    if i ≥ chunk.start ∧ i < chunk.stop then some chunk.text
    else chunkContaining i rest

/-- `_extract_application` from `extractor.py`: prefer the first token in
document order whose dependency label is "pobj" and whose head's lower-cased
text is a preposition in the set; return the text of the first noun chunk
containing it, else that token's own text.  Fall back to the first noun chunk
whose root's head lower-cases to a preposition in the set; else `none`. -/
def _extract_application (doc : Doc) : Option (List Char) :=
  match doc.tokens.find? (fun token =>
      token.dep == s2l "pobj" && prepositions.any (fun p => lower token.headText == p)) with
  | some token =>
    match chunkContaining token.i doc.noun_chunks with
    | some chunkText => some chunkText
    | none => some token.text
  | none =>
    match doc.noun_chunks.find? (fun chunk =>
        prepositions.any (fun p => lower chunk.rootHeadText == p)) with
    | some chunk => some chunk.text
    | none => none

/-- ASCII lower-case letter: the class `[a-z]` of `_ATTR_PATTERN`. -/
def isLowerAsc (c : Char) : Bool := 'a' ≤ c && c ≤ 'z'

/-- ASCII upper-case letter: the class `[A-Z]` of `_ATTR_PATTERN`. -/
def isUpperAsc (c : Char) : Bool := 'A' ≤ c && c ≤ 'Z'

/-- ASCII digit: the class `[0-9]`. -/
def isDigitAsc (c : Char) : Bool := '0' ≤ c && c ≤ '9'

/-- Regex word character `\w` = `[A-Za-z0-9_]` (used by `\b` and by the
camelCase tail class), modelled on the ASCII range. -/
def isWordChar (c : Char) : Bool := isLowerAsc c || isUpperAsc c || isDigitAsc c || c == '_'

/-- The class `[a-z0-9]` of the snake_case alternative. -/
def isLowerDigit (c : Char) : Bool := isLowerAsc c || isDigitAsc c

/-- The content class `[A-Za-z0-9_.]` of the quoted alternatives. -/
def isQuotedContentChar (c : Char) : Bool :=
  isLowerAsc c || isUpperAsc c || isDigitAsc c || c == '_' || c == '.'

/-- The single-quote character. -/
def squote : Char := Char.ofNat 39

/-- The double-quote character. -/
def dquote : Char := Char.ofNat 34

/-- The `\b` test at the current scan position, given the character
immediately before it (`none` at the start of the string).  The next
character of every alternative that uses `\b` is a word character, so the
boundary holds iff the preceding character is absent or not a word
character. -/
def boundaryBefore : Option Char → Bool
  | none => true
  | some c => !isWordChar c

/-- A regex match object: `group(0)`, and the captures of group 1 (the
single-quoted alternative) and group 2 (the double-quoted alternative). -/
structure MatchRec where
  whole : List Char
  g1 : Option (List Char)
  g2 : Option (List Char)
deriving DecidableEq, Repr

/-- The camelCase alternative `\b[a-z]+[A-Z][A-Za-z0-9_]*\b` tried at the
current position: a maximal nonempty run of `[a-z]` (the `[A-Z]` that must
follow forces `[a-z]+` to take the whole run), one `[A-Z]`, then the maximal
run of word characters (after which `\b` always holds).  Returns
(match text, rest of input) on success. -/
def camelAt (prev : Option Char) (l : List Char) : Option (List Char × List Char) :=
  if boundaryBefore prev then
    let low := l.takeWhile isLowerAsc
    if low.isEmpty then none
    else
      match l.dropWhile isLowerAsc with
      | [] => none
      | c :: rest2 =>
        if isUpperAsc c then
          some (low ++ c :: rest2.takeWhile isWordChar, rest2.dropWhile isWordChar)
        else none
  else none

/-- The repetition `(?:_[a-z0-9]+)+` of the snake_case alternative: consume
as many `_`-plus-nonempty-`[a-z0-9]`-run groups as possible.  Returns
(consumed text, rest).  Fueled with the input length by the caller: every
iteration consumes at least two characters, so that fuel is always
sufficient (`snakeExt_fuel_irrelevant` below). -/
def snakeExt : Nat → List Char → List Char × List Char
  | _, [] => ([], [])
  | 0, l => ([], l)
  | fuel + 1, c :: rest =>
    if c == '_' then
      let seg := rest.takeWhile isLowerDigit
      if seg.isEmpty then ([], c :: rest)
      else
        let p := snakeExt fuel (rest.dropWhile isLowerDigit)
        (c :: (seg ++ p.1), p.2)
    else ([], c :: rest)

/-- The snake_case alternative `\b[a-z0-9]+(?:_[a-z0-9]+)+\b` tried at the
current position: a maximal nonempty `[a-z0-9]` run (forced maximal because
the `_` that must follow is not in the class), at least one `_`-segment
group, and the trailing `\b`.  If the character after the maximal parse is a
word character the whole alternative fails: every shorter candidate end
position is followed by `_` or `[a-z0-9]`, so backtracking cannot satisfy
the trailing `\b` either. -/
def snakeAt (prev : Option Char) (l : List Char) : Option (List Char × List Char) :=
  if boundaryBefore prev then
    let seg := l.takeWhile isLowerDigit
    if seg.isEmpty then none
    else
      let rest0 := l.dropWhile isLowerDigit
      let p := snakeExt rest0.length rest0
      if p.1.isEmpty then none
      else
        match p.2 with
        | [] => some (seg ++ p.1, [])
        | c :: rest3 => if isWordChar c then none else some (seg ++ p.1, c :: rest3)
  else none

/-- A quoted alternative `q([A-Za-z0-9_.]+)q` tried at the current position
(no `\b` involved): the quote, a maximal nonempty content run (forced
maximal because the closing quote is not in the content class), and the
closing quote.  Returns (whole match including quotes, captured content,
rest). -/
def quotedAt (q : Char) : List Char → Option (List Char × List Char × List Char)
  | [] => none
  | c :: rest =>
    if c == q then
      let content := rest.takeWhile isQuotedContentChar
      if content.isEmpty then none
      else
        match rest.dropWhile isQuotedContentChar with
        | [] => none
        | c2 :: rest2 =>
          if c2 == q then some (c :: (content ++ [c2]), content, rest2) else none
    else none

/-- Try `_ATTR_PATTERN` at the current position: the four alternatives in
the pattern's order (camelCase, snake_case, single-quoted, double-quoted);
the first that matches wins.  Returns the match object and the rest of the
input. -/
def matchAt (prev : Option Char) (l : List Char) : Option (MatchRec × List Char) :=
  match camelAt prev l with
  | some (m, rest) => some (⟨m, none, none⟩, rest)
  | none =>
    match snakeAt prev l with
    | some (m, rest) => some (⟨m, none, none⟩, rest)
    | none =>
      match quotedAt squote l with
      | some (whole, content, rest) => some (⟨whole, some content, none⟩, rest)
      | none =>
        match quotedAt dquote l with
        | some (whole, content, rest) => some (⟨whole, none, some content⟩, rest)
        | none => none

/-- `re.finditer` over `_ATTR_PATTERN`: at each position try the pattern; on
a match emit it and resume right after it (the character preceding the new
position is the last character of the match), otherwise advance one
character.  Fueled with the input length by the wrapper below; every match
consumes at least one character, so that fuel is always sufficient
(`scanAux_fuel_irrelevant` below). -/
def scanAux : Nat → Option Char → List Char → List MatchRec
  | _, _, [] => []
  | 0, _, _ :: _ => []
  | fuel + 1, prev, c :: rest =>
    match matchAt prev (c :: rest) with
    | some (m, r) => m :: scanAux fuel m.whole.getLast? r
    | none => scanAux fuel (some c) rest

/-- All matches of `_ATTR_PATTERN` over the text, in order. -/
def scanMatches (text : List Char) : List MatchRec := scanAux text.length none text

/-- Python truthiness of an optional string (`None` and `""` are falsy):
the guard `if g1:` / `elif g2:` of `_extract_attributes`. -/
def pyTruthyStr : Option (List Char) → Bool
  | none => false
  | some s => !s.isEmpty

/-- The result-building loop of `_extract_attributes`: for each match append
group 1 if truthy, else group 2 if truthy, else `group(0)`. -/
def attrLoop : List MatchRec → List (List Char)
  | [] => []
  | m :: rest =>
    (if pyTruthyStr m.g1 then m.g1.getD []
     else if pyTruthyStr m.g2 then m.g2.getD []
     else m.whole) :: attrLoop rest

/-- `_extract_attributes` from `extractor.py`. -/
def _extract_attributes (text : List Char) : List (List Char) :=
  attrLoop (scanMatches text)

/-- `ExtractionResult` from `extractor.py`. -/
structure ExtractionResult where
  intent : Option Intent
  rule_type : Option RuleType
  application_name : Option (List Char)
  source_attributes : List (List Char)
  identity_attributes : List (List Char)
deriving DecidableEq, Repr

/-- The attribute-routing block of `extract_entities` (the
`if rule_type == RuleType.BUILD_MAP and len(attributes) >= 2` statement),
as a function of its two inputs.  Returns
(source_attrs, identity_attrs). -/
def routeAttributes (rule_type : Option RuleType) (attributes : List (List Char)) :
    List (List Char) × List (List Char) :=
  if rule_type = some RuleType.BUILD_MAP ∧ 2 ≤ attributes.length then
    ([attributes.getD 0 []], [attributes.getD 1 []])
  else
    (attributes, [])

/-- `extract_entities` from `extractor.py`, given the loaded engine `nlp`
(the result of `get_nlp()`): run the four extraction stages, route the
attributes, and assemble the result record. -/
def extract_entities (nlp : List Char → Doc) (text : List Char) : ExtractionResult :=
  let doc := nlp text
  let intent := _extract_intent text
  let rule_type := _extract_rule_type text
  let application := _extract_application doc
  let attributes := _extract_attributes text
  let routed := routeAttributes rule_type attributes
  { intent := intent
    rule_type := rule_type
    application_name := application
    source_attributes := routed.1
    identity_attributes := routed.2 }

/-- An engine-initialization failure (`spacy.load` raising). -/
structure EngineError where
  msg : List Char
deriving DecidableEq, Repr

/-- `extract_entities` including the `get_nlp()` call that may fail: if
loading the engine failed, that failure propagates unmodified; otherwise the
pipeline runs to completion. -/
def extract_entities_checked (loadResult : Except EngineError (List Char → Doc))
    (text : List Char) : Except EngineError ExtractionResult :=
  match loadResult with
  | Except.error e => Except.error e
  | Except.ok nlp => Except.ok (extract_entities nlp text)

/-- `get_nlp` from `extractor.py`, with the module-level `NLP` handle made
explicit as state: `load` is the (deterministic) result of
`spacy.load("en_core_web_sm")`.  Returns the handle and the new state. -/
def get_nlp (load : List Char → Doc) :
    Option (List Char → Doc) → (List Char → Doc) × Option (List Char → Doc)
  | none => (load, some load)
  | some e => (e, some e)

/-- `extract_entities` with the module-level `NLP` state threaded through
its `get_nlp()` call. -/
def extract_entities_st (load : List Char → Doc) (s : Option (List Char → Doc))
    (text : List Char) : ExtractionResult × Option (List Char → Doc) :=
  let r := get_nlp load s
  (extract_entities r.1 text, r.2)

/-- Token selection as the specification words it: a quoted match yields its
captured content (quotes stripped), an identifier match yields the matched
text verbatim. -/
def specTokenOfMatch (m : MatchRec) : List Char :=
  match m.g1 with
  | some content => content
  | none =>
    match m.g2 with
    | some content => content
    | none => m.whole

/-- The attribute-token extractor as the specification words it: exactly the
pattern's matches, left to right, quoted matches with quotes stripped,
identifier matches verbatim, no deduplication, no case normalization. -/
def specAttrTokens (text : List Char) : List (List Char) :=
  (scanMatches text).map specTokenOfMatch

/-- The token predicate of the specification's application-name contract: a
prepositional object whose head lower-cases to a preposition in the set. -/
def specIsPobjPrep (token : SToken) : Bool :=
  token.dep == s2l "pobj" && prepositions.any (fun p => lower token.headText == p)

/-- The chunk-span predicate of the specification: the chunk's span contains
token index `i`. -/
def specChunkContains (i : Nat) (chunk : NounChunk) : Bool :=
  chunk.start ≤ i && i < chunk.stop

/-- The application-name extractor as the specification words it: for the
first qualifying prepositional-object token in document order, the text of
the first noun chunk containing its index (or the token's own text if none
contains it); else the text of the first noun chunk whose root's head
lower-cases to a preposition in the set; else absent. -/
def specApplication (doc : Doc) : Option (List Char) :=
  match doc.tokens.find? specIsPobjPrep with
  | some token =>
    some ((Option.map (fun chunk => chunk.text)
      (doc.noun_chunks.find? (specChunkContains token.i))).getD token.text)
  | none =>
    Option.map (fun chunk => chunk.text)
      (doc.noun_chunks.find? (fun chunk => prepositions.contains (lower chunk.rootHeadText)))

/-- Invariant on a match object produced by `_ATTR_PATTERN`: either an
identifier match (no captures, nonempty word-character text) or a quoted
match (exactly one capture, nonempty, within the content class). -/
def MatchInv (m : MatchRec) : Prop :=
  (m.g1 = none ∧ m.g2 = none ∧ m.whole ≠ [] ∧ ∀ c ∈ m.whole, isWordChar c = true) ∨
  (∃ content, content ≠ [] ∧ (∀ c ∈ content, isQuotedContentChar c = true) ∧
    (m.g1 = some content ∧ m.g2 = none ∨ m.g1 = none ∧ m.g2 = some content))

theorem listStartsWith_iff (n : List Char) : ∀ h : List Char,
    listStartsWith n h = true ↔ ∃ s, h = n ++ s := by
  induction n with
  | nil => intro h; simp [listStartsWith]
  | cons a as ih =>
    intro h
    cases h with
    | nil => simp [listStartsWith]
    | cons b bs =>
      simp only [listStartsWith, Bool.and_eq_true, beq_iff_eq, ih, List.cons_append]
      constructor
      · rintro ⟨rfl, s, rfl⟩
        exact ⟨s, rfl⟩
      · rintro ⟨s, hs⟩
        injection hs with h1 h2
        exact ⟨h1.symm, s, h2⟩

theorem pyIn_iff (n h : List Char) : pyIn n h = true ↔ ∃ p s, h = p ++ n ++ s := by
  induction h with
  | nil =>
    simp only [pyIn, listStartsWith_iff]
    constructor
    · rintro ⟨s, hs⟩
      exact ⟨[], s, by simpa using hs⟩
    · rintro ⟨p, s, hp⟩
      rcases List.append_eq_nil.mp (List.append_eq_nil.mp hp.symm).1 with ⟨rfl, rfl⟩
      exact ⟨s, by simpa using hp⟩
  | cons c rest ih =>
    simp only [pyIn, Bool.or_eq_true, listStartsWith_iff, ih]
    constructor
    · rintro (⟨s, hs⟩ | ⟨p, s, rfl⟩)
      · exact ⟨[], s, by simpa using hs⟩
      · exact ⟨c :: p, s, by simp⟩
    · rintro ⟨p, s, hp⟩
      cases p with
      | nil => exact Or.inl ⟨s, by simpa using hp⟩
      | cons x xs =>
        injection hp with h1 h2
        exact Or.inr ⟨xs, s, h2⟩

theorem pyIn_trans {a b c : List Char} (h1 : pyIn a b = true) (h2 : pyIn b c = true) :
    pyIn a c = true := by
  rw [pyIn_iff] at h1 h2 ⊢
  obtain ⟨p1, s1, rfl⟩ := h1
  obtain ⟨p2, s2, rfl⟩ := h2
  exact ⟨p2 ++ p1, s1 ++ s2, by simp⟩

/-- Claim C1: the attribute router of `extract_entities`: when the rule type
is BuildMap and at least two attribute tokens were found, the source list is
exactly the first token and the identity list exactly the second (each of
length one, all other tokens discarded); in every other case the source
list is the token list unchanged and the identity list is empty.  The last
two conjuncts tie the router to the lists assembled by `extract_entities`. -/
theorem claim_C1_router :
    (∀ (rt : Option RuleType) (attrs : List (List Char)),
      (rt = some RuleType.BUILD_MAP ∧ 2 ≤ attrs.length →
        routeAttributes rt attrs = ([attrs.getD 0 []], [attrs.getD 1 []]) ∧
        (routeAttributes rt attrs).1.length = 1 ∧
        (routeAttributes rt attrs).2.length = 1) ∧
      (¬(rt = some RuleType.BUILD_MAP ∧ 2 ≤ attrs.length) →
        routeAttributes rt attrs = (attrs, []))) ∧
    (∀ (nlp : List Char → Doc) (text : List Char),
      (extract_entities nlp text).source_attributes =
        (routeAttributes (_extract_rule_type text) (_extract_attributes text)).1 ∧
      (extract_entities nlp text).identity_attributes =
        (routeAttributes (_extract_rule_type text) (_extract_attributes text)).2) := by
  refine ⟨fun rt attrs => ⟨fun hcond => ?_, fun hcond => ?_⟩, fun nlp text => ⟨rfl, rfl⟩⟩
  · rw [routeAttributes, if_pos hcond]
    exact ⟨rfl, rfl, rfl⟩
  · rw [routeAttributes, if_neg hcond]

/-- Witness for claim C1: the router at concrete inputs on both sides of
the condition. -/
theorem claim_C1_router_witness :
    routeAttributes (some RuleType.BUILD_MAP) [s2l "a", s2l "b", s2l "c"] =
      ([s2l "a"], [s2l "b"]) ∧
    routeAttributes none [s2l "a"] = ([s2l "a"], []) :=
  ⟨((claim_C1_router.1 (some RuleType.BUILD_MAP) [s2l "a", s2l "b", s2l "c"]).1
      ⟨rfl, by decide⟩).1,
   (claim_C1_router.1 none [s2l "a"]).2 (by decide)⟩

/-- Claim C3: the rule-type classifier lower-cases the text and returns
Correlation iff "correlation" occurs, else BuildMap iff "build map" or
"buildmap" occurs, else PreIterate iff "pre-iterate" or "preiterate"
occurs, else absent; in particular "correlation" wins over any other
keywords present. -/
theorem claim_C3_rule_type (text : List Char) :
    (_extract_rule_type text = some RuleType.CORRELATION ↔
      pyIn (s2l "correlation") (lower text) = true) ∧
    (_extract_rule_type text = some RuleType.BUILD_MAP ↔
      pyIn (s2l "correlation") (lower text) = false ∧
      (pyIn (s2l "build map") (lower text) = true ∨
       pyIn (s2l "buildmap") (lower text) = true)) ∧
    (_extract_rule_type text = some RuleType.PRE_ITERATE ↔
      pyIn (s2l "correlation") (lower text) = false ∧
      pyIn (s2l "build map") (lower text) = false ∧
      pyIn (s2l "buildmap") (lower text) = false ∧
      (pyIn (s2l "pre-iterate") (lower text) = true ∨
       pyIn (s2l "preiterate") (lower text) = true)) ∧
    (_extract_rule_type text = none ↔
      pyIn (s2l "correlation") (lower text) = false ∧
      pyIn (s2l "build map") (lower text) = false ∧
      pyIn (s2l "buildmap") (lower text) = false ∧
      pyIn (s2l "pre-iterate") (lower text) = false ∧
      pyIn (s2l "preiterate") (lower text) = false) := by
  unfold _extract_rule_type
  cases h1 : pyIn (s2l "correlation") (lower text) <;>
    cases h2 : pyIn (s2l "build map") (lower text) <;>
      cases h3 : pyIn (s2l "buildmap") (lower text) <;>
        cases h4 : pyIn (s2l "pre-iterate") (lower text) <;>
          cases h5 : pyIn (s2l "preiterate") (lower text) <;>
            simp [h1, h2, h3, h4, h5]

/-- Witness for claim C3: a mixed-case input containing "CORRELATION"
together with build-map and pre-iterate keywords classifies as
Correlation. -/
theorem claim_C3_rule_type_witness :
    _extract_rule_type (s2l "CORRELATION or build map or pre-iterate") =
      some RuleType.CORRELATION :=
  ((claim_C3_rule_type (s2l "CORRELATION or build map or pre-iterate")).1).mpr (by decide)

/-- Claim C4: the intent classifier lower-cases the text and returns the
first category in the priority order generate, modify, explain whose
keyword set has a member occurring as a substring; absent when no set has a
member present. -/
theorem claim_C4_intent (text : List Char) :
    (_extract_intent text = some Intent.GENERATE_RULE ↔
      ∃ v ∈ genVerbs, pyIn v (lower text) = true) ∧
    (_extract_intent text = some Intent.MODIFY_RULE ↔
      ¬(∃ v ∈ genVerbs, pyIn v (lower text) = true) ∧
      ∃ v ∈ modVerbs, pyIn v (lower text) = true) ∧
    (_extract_intent text = some Intent.EXPLAIN_RULE ↔
      ¬(∃ v ∈ genVerbs, pyIn v (lower text) = true) ∧
      ¬(∃ v ∈ modVerbs, pyIn v (lower text) = true) ∧
      ∃ p ∈ explainPhrases, pyIn p (lower text) = true) ∧
    (_extract_intent text = none ↔
      ¬(∃ v ∈ genVerbs, pyIn v (lower text) = true) ∧
      ¬(∃ v ∈ modVerbs, pyIn v (lower text) = true) ∧
      ¬(∃ p ∈ explainPhrases, pyIn p (lower text) = true)) := by
  unfold _extract_intent
  cases h1 : genVerbs.any (fun verb => pyIn verb (lower text)) <;>
    cases h2 : modVerbs.any (fun verb => pyIn verb (lower text)) <;>
      cases h3 : explainPhrases.any (fun phrase => pyIn phrase (lower text)) <;>
        simp [h1, h2, h3, ← List.any_eq_true]

/-- Witness for claim C4: an input with none of the configured keywords
yields an absent intent; one with only an explain phrase yields
ExplainRule. -/
theorem claim_C4_intent_witness :
    _extract_intent (s2l "hello world") = none ∧
    _extract_intent (s2l "what is this rule") = some Intent.EXPLAIN_RULE :=
  ⟨((claim_C4_intent (s2l "hello world")).2.2.2).mpr (by decide),
   ((claim_C4_intent (s2l "what is this rule")).2.2.1).mpr (by decide)⟩

/-- Claim C6: the intent classifier, rule-type classifier and
attribute-token extractor are total Lean functions; on the empty string
they return none, none and the empty list; an engine-initialization
failure propagates unmodified through `extract`, and with a loaded engine
the pipeline always completes with a full result. -/
theorem claim_C6_totality :
    _extract_intent [] = none ∧
    _extract_rule_type [] = none ∧
    _extract_attributes [] = [] ∧
    (∀ (e : EngineError) (text : List Char),
      extract_entities_checked (Except.error e) text = Except.error e) ∧
    (∀ (nlp : List Char → Doc) (text : List Char),
      extract_entities_checked (Except.ok nlp) text =
        Except.ok (extract_entities nlp text)) :=
  ⟨by decide, by decide, rfl, fun e text => rfl, fun nlp text => rfl⟩

/-- Claim C7: `extract` is deterministic: starting from any engine-handle
state, a second call on the same input yields the same result record and
leaves the state unchanged (the only mutation is the one-time engine
initialization of the first call). -/
theorem claim_C7_deterministic (load : List Char → Doc)
    (s : Option (List Char → Doc)) (text : List Char) :
    (extract_entities_st load (extract_entities_st load s text).2 text).1 =
      (extract_entities_st load s text).1 ∧
    (extract_entities_st load (extract_entities_st load s text).2 text).2 =
      (extract_entities_st load s text).2 := by
  cases s <;> exact ⟨rfl, rfl⟩

/-- Claim C8: the engine handle is initialized at most once: from the unset
state `get_nlp` loads and stores the handle, from a set state it returns
the stored handle and never reassigns it; after any call the state holds
exactly the returned handle. -/
theorem claim_C8_init_once :
    (∀ (load : List Char → Doc), get_nlp load none = (load, some load)) ∧
    (∀ (load e : List Char → Doc), get_nlp load (some e) = (e, some e)) ∧
    (∀ (load : List Char → Doc) (s : Option (List Char → Doc)),
      (get_nlp load s).2 = some (get_nlp load s).1) := by
  refine ⟨fun load => rfl, fun load e => rfl, fun load s => ?_⟩
  cases s <;> rfl

/-- Counterexample to claim C9 as stated: the parenthetical asserts that an
input whose lower-casing contains "build map" makes the rule-type
classifier return BuildMap, but when "correlation" is also present the
classifier returns Correlation instead. -/
theorem claim_C9_counterexample :
    pyIn (s2l "build map") (lower (s2l "correlation build map")) = true ∧
    _extract_rule_type (s2l "correlation build map") ≠ some RuleType.BUILD_MAP ∧
    _extract_rule_type (s2l "correlation build map") = some RuleType.CORRELATION := by
  decide

/-- Claim C9 (amended): for every input whose lower-casing contains
"build map", the intent classifier returns GenerateRule — never ModifyRule
or ExplainRule — because "build" is in the generate-verb set checked
first; and the rule-type classifier returns BuildMap via that keyword
provided "correlation" is not also present. -/
theorem claim_C9_buildmap_intent (text : List Char)
    (h : pyIn (s2l "build map") (lower text) = true) :
    _extract_intent text = some Intent.GENERATE_RULE ∧
    _extract_intent text ≠ some Intent.MODIFY_RULE ∧
    _extract_intent text ≠ some Intent.EXPLAIN_RULE ∧
    (pyIn (s2l "correlation") (lower text) = false →
      _extract_rule_type text = some RuleType.BUILD_MAP) := by
  have hb : pyIn (s2l "build") (lower text) = true :=
    pyIn_trans (by decide) h
  have hany : genVerbs.any (fun verb => pyIn verb (lower text)) = true :=
    List.any_eq_true.mpr ⟨s2l "build", by decide, hb⟩
  have hgen : _extract_intent text = some Intent.GENERATE_RULE := by
    unfold _extract_intent
    simp [hany]
  refine ⟨hgen, by simp [hgen], by simp [hgen], fun hc => ?_⟩
  unfold _extract_rule_type
  simp [hc, h]

/-- Witness for amended claim C9: an input containing both a modify verb
and "Build Map" still classifies as GenerateRule, and as BuildMap. -/
theorem claim_C9_buildmap_intent_witness :
    _extract_intent (s2l "update the Build Map rule") = some Intent.GENERATE_RULE ∧
    _extract_rule_type (s2l "update the Build Map rule") = some RuleType.BUILD_MAP :=
  ⟨(claim_C9_buildmap_intent (s2l "update the Build Map rule") (by decide)).1,
   (claim_C9_buildmap_intent (s2l "update the Build Map rule") (by decide)).2.2.2
     (by decide)⟩

theorem wordChar_of_lowerDigit {c : Char} (h : isLowerDigit c = true) :
    isWordChar c = true := by
  simp only [isLowerDigit, Bool.or_eq_true] at h
  rcases h with h | h <;> simp [isWordChar, h]

theorem qcontent_of_word {c : Char} (h : isWordChar c = true) :
    isQuotedContentChar c = true := by
  simp only [isWordChar, Bool.or_eq_true] at h
  simp only [isQuotedContentChar, Bool.or_eq_true]
  tauto

theorem qcontent_props {c : Char} (h : isQuotedContentChar c = true) :
    c.isWhitespace = false ∧ c ≠ squote ∧ c ≠ dquote := by
  refine ⟨?_, fun he => by rw [he] at h; exact absurd h (by decide),
    fun he => by rw [he] at h; exact absurd h (by decide)⟩
  cases hw : c.isWhitespace with
  | false => rfl
  | true =>
    exfalso
    have hcases : c = ' ' ∨ c = '\t' ∨ c = '\r' ∨ c = '\n' := by
      simpa [Char.isWhitespace, or_assoc] using hw
    rcases hcases with rfl | rfl | rfl | rfl <;> exact absurd h (by decide)

theorem length_dropWhile_le (p : Char → Bool) (l : List Char) :
    (l.dropWhile p).length ≤ l.length := by
  conv_rhs => rw [← List.takeWhile_append_dropWhile p l]
  rw [List.length_append]
  exact Nat.le_add_left _ _

theorem length_dropWhile_lt (p : Char → Bool) (l : List Char)
    (h : l.takeWhile p ≠ []) : (l.dropWhile p).length < l.length := by
  have h2 : (l.takeWhile p).length + (l.dropWhile p).length = l.length := by
    rw [← List.length_append, List.takeWhile_append_dropWhile p l]
  have h3 : 0 < (l.takeWhile p).length := List.length_pos.mpr h
  omega

theorem snakeExt_chars (fuel : Nat) : ∀ l : List Char,
    ∀ c ∈ (snakeExt fuel l).1, isWordChar c = true := by
  induction fuel with
  | zero => intro l x hx; cases l <;> simp [snakeExt] at hx
  | succ f ih =>
    intro l x hx
    cases l with
    | nil => simp [snakeExt] at hx
    | cons c rest =>
      rw [snakeExt] at hx
      by_cases h : (c == '_') = true
      · rw [if_pos h] at hx
        by_cases hseg : (rest.takeWhile isLowerDigit).isEmpty = true
        · rw [if_pos hseg] at hx
          exact absurd hx (List.not_mem_nil x)
        · rw [if_neg hseg] at hx
          dsimp only at hx
          rcases List.mem_cons.mp hx with rfl | hx2
          · have hc : x = '_' := by simpa using h
            rw [hc]; decide
          · rcases List.mem_append.mp hx2 with hx3 | hx3
            · exact wordChar_of_lowerDigit (List.mem_takeWhile_imp hx3)
            · exact ih _ x hx3
      · rw [if_neg h] at hx
        exact absurd hx (List.not_mem_nil x)

theorem snakeExt_rest_le (fuel : Nat) : ∀ l : List Char,
    (snakeExt fuel l).2.length ≤ l.length := by
  induction fuel with
  | zero => intro l; cases l <;> simp [snakeExt]
  | succ f ih =>
    intro l
    cases l with
    | nil => simp [snakeExt]
    | cons c rest =>
      rw [snakeExt]
      by_cases h : (c == '_') = true
      · rw [if_pos h]
        by_cases hseg : (rest.takeWhile isLowerDigit).isEmpty = true
        · rw [if_pos hseg]
        · rw [if_neg hseg]
          dsimp only
          have hd : (rest.dropWhile isLowerDigit).length ≤ rest.length :=
            length_dropWhile_le _ _
          have hext := ih (rest.dropWhile isLowerDigit)
          simp only [List.length_cons]
          omega
      · rw [if_neg h]

theorem camelAt_some {prev : Option Char} {l m r : List Char}
    (h : camelAt prev l = some (m, r)) :
    m ≠ [] ∧ (∀ c ∈ m, isWordChar c = true) ∧ r.length < l.length := by
  simp only [camelAt] at h
  split at h
  · split at h
    · exact absurd h (by simp)
    · split at h
      · exact absurd h (by simp)
      · next c rest2 hdrop =>
        split at h
        · next hup =>
          injection h with h1
          injection h1 with hm hr
          subst hm; subst hr
          refine ⟨by simp, fun x hx => ?_, ?_⟩
          · rcases List.mem_append.mp hx with hx2 | hx2
            · have := List.mem_takeWhile_imp hx2
              simp [isWordChar, this]
            · rcases List.mem_cons.mp hx2 with rfl | hx3
              · simp [isWordChar, hup]
              · exact List.mem_takeWhile_imp hx3
          · have e1 : (l.dropWhile isLowerAsc).length ≤ l.length :=
              length_dropWhile_le _ _
            rw [hdrop] at e1
            have e2 : (rest2.dropWhile isWordChar).length ≤ rest2.length :=
              length_dropWhile_le _ _
            simp only [List.length_cons] at e1
            omega
        · exact absurd h (by simp)
  · exact absurd h (by simp)

theorem snakeAt_some {prev : Option Char} {l m r : List Char}
    (h : snakeAt prev l = some (m, r)) :
    m ≠ [] ∧ (∀ c ∈ m, isWordChar c = true) ∧ r.length < l.length := by
  simp only [snakeAt] at h
  split at h
  · split at h
    · exact absurd h (by simp)
    · next hseg =>
      have htw : l.takeWhile isLowerDigit ≠ [] := fun hnil => hseg (by rw [hnil]; rfl)
      have hne : l.takeWhile isLowerDigit ++ (snakeExt (l.dropWhile isLowerDigit).length
          (l.dropWhile isLowerDigit)).1 ≠ [] :=
        fun happ => htw (List.append_eq_nil.mp happ).1
      rcases hse : snakeExt (l.dropWhile isLowerDigit).length (l.dropWhile isLowerDigit)
        with ⟨ext, rest2⟩
      rw [hse] at h hne
      dsimp only at h
      have hextc : ∀ c ∈ ext, isWordChar c = true := by
        have hall := snakeExt_chars (l.dropWhile isLowerDigit).length (l.dropWhile isLowerDigit)
        rw [hse] at hall
        exact hall
      have hrest2 : rest2.length < l.length := by
        have h1 : (snakeExt (l.dropWhile isLowerDigit).length (l.dropWhile isLowerDigit)).2.length ≤
            (l.dropWhile isLowerDigit).length := snakeExt_rest_le _ _
        rw [hse] at h1
        dsimp only at h1
        have h2 : (l.dropWhile isLowerDigit).length < l.length :=
          length_dropWhile_lt _ _ htw
        omega
      have hsegc : ∀ c ∈ l.takeWhile isLowerDigit, isWordChar c = true :=
        fun c hc => wordChar_of_lowerDigit (List.mem_takeWhile_imp hc)
      split at h
      · exact absurd h (by simp)
      · split at h
        · injection h with h1
          injection h1 with hm hr
          subst hm; subst hr
          refine ⟨hne, fun x hx => ?_, by simpa using hrest2⟩
          rcases List.mem_append.mp hx with hx2 | hx2
          · exact hsegc x hx2
          · exact hextc x hx2
        · next c rest3 hr2 =>
          split at h
          · exact absurd h (by simp)
          · injection h with h1
            injection h1 with hm hr
            subst hm; subst hr
            refine ⟨hne, fun x hx => ?_, hrest2⟩
            rcases List.mem_append.mp hx with hx2 | hx2
            · exact hsegc x hx2
            · exact hextc x hx2
  · exact absurd h (by simp)

theorem quotedAt_some {q : Char} {l w content r : List Char}
    (h : quotedAt q l = some (w, content, r)) :
    content ≠ [] ∧ (∀ c ∈ content, isQuotedContentChar c = true) ∧
    r.length < l.length := by
  cases l with
  | nil => simp [quotedAt] at h
  | cons c rest =>
    simp only [quotedAt] at h
    split at h
    · split at h
      · exact absurd h (by simp)
      · next hcne =>
        split at h
        · exact absurd h (by simp)
        · next c2 rest2 hdrop =>
          split at h
          · injection h with h1
            injection h1 with hw h2
            injection h2 with hc hr
            subst hc; subst hr
            refine ⟨by simpa using hcne, fun x hx => List.mem_takeWhile_imp hx, ?_⟩
            have e1 : (rest.dropWhile isQuotedContentChar).length ≤ rest.length :=
              length_dropWhile_le _ _
            rw [hdrop] at e1
            simp only [List.length_cons] at e1 ⊢
            omega
          · exact absurd h (by simp)
    · exact absurd h (by simp)

theorem matchAt_some {prev : Option Char} {l : List Char} {m : MatchRec}
    {r : List Char} (h : matchAt prev l = some (m, r)) :
    MatchInv m ∧ r.length < l.length := by
  simp only [matchAt] at h
  cases hc : camelAt prev l with
  | some pr =>
    obtain ⟨mm, rr⟩ := pr
    rw [hc] at h
    simp only at h
    injection h with h1
    injection h1 with hm hr
    subst hm; subst hr
    obtain ⟨hne, hchars, hlen⟩ := camelAt_some hc
    exact ⟨Or.inl ⟨rfl, rfl, hne, hchars⟩, hlen⟩
  | none =>
    rw [hc] at h
    cases hs : snakeAt prev l with
    | some pr =>
      obtain ⟨mm, rr⟩ := pr
      rw [hs] at h
      simp only at h
      injection h with h1
      injection h1 with hm hr
      subst hm; subst hr
      obtain ⟨hne, hchars, hlen⟩ := snakeAt_some hs
      exact ⟨Or.inl ⟨rfl, rfl, hne, hchars⟩, hlen⟩
    | none =>
      rw [hs] at h
      cases hq : quotedAt squote l with
      | some tr =>
        obtain ⟨ww, cc, rr⟩ := tr
        rw [hq] at h
        simp only at h
        injection h with h1
        injection h1 with hm hr
        subst hm; subst hr
        obtain ⟨hne, hchars, hlen⟩ := quotedAt_some hq
        exact ⟨Or.inr ⟨cc, hne, hchars, Or.inl ⟨rfl, rfl⟩⟩, hlen⟩
      | none =>
        rw [hq] at h
        cases hq2 : quotedAt dquote l with
        | some tr =>
          obtain ⟨ww, cc, rr⟩ := tr
          rw [hq2] at h
          simp only at h
          injection h with h1
          injection h1 with hm hr
          subst hm; subst hr
          obtain ⟨hne, hchars, hlen⟩ := quotedAt_some hq2
          exact ⟨Or.inr ⟨cc, hne, hchars, Or.inr ⟨rfl, rfl⟩⟩, hlen⟩
        | none => rw [hq2] at h; exact absurd h (by simp)

theorem scanAux_inv (fuel : Nat) : ∀ (prev : Option Char) (l : List Char),
    ∀ m ∈ scanAux fuel prev l, MatchInv m := by
  induction fuel with
  | zero =>
    intro prev l m hm
    cases l <;> simp [scanAux] at hm
  | succ f ih =>
    intro prev l m hm
    cases l with
    | nil => simp [scanAux] at hm
    | cons c rest =>
      rw [scanAux] at hm
      cases hmt : matchAt prev (c :: rest) with
      | some pr =>
        obtain ⟨m2, r⟩ := pr
        rw [hmt] at hm
        simp only at hm
        rcases List.mem_cons.mp hm with rfl | hm2
        · exact (matchAt_some hmt).1
        · exact ih _ _ _ hm2
      | none =>
        rw [hmt] at hm
        exact ih _ _ _ hm

theorem attrLoop_mem (ms : List MatchRec) (hinv : ∀ m ∈ ms, MatchInv m) :
    ∀ tok ∈ attrLoop ms, tok ≠ [] ∧ ∀ c ∈ tok, isQuotedContentChar c = true := by
  induction ms with
  | nil => intro tok htok; simp [attrLoop] at htok
  | cons m rest ih =>
    intro tok htok
    rw [attrLoop] at htok
    rcases List.mem_cons.mp htok with rfl | htok2
    · rcases hinv m (List.mem_cons_self m rest) with
        ⟨hg1, hg2, hwne, hwchars⟩ | ⟨content, hne, hchars, ⟨hg1, hg2⟩ | ⟨hg1, hg2⟩⟩
      · rw [hg1, hg2]
        simp only [pyTruthyStr, if_false]
        exact ⟨hwne, fun c hc => qcontent_of_word (hwchars c hc)⟩
      · have hf : content.isEmpty = false := List.isEmpty_eq_false.mpr hne
        rw [hg1]
        simp only [pyTruthyStr, hf, Bool.not_false, if_true, Option.getD_some]
        exact ⟨hne, hchars⟩
      · have hf : content.isEmpty = false := List.isEmpty_eq_false.mpr hne
        rw [hg1, hg2]
        simp only [pyTruthyStr, hf, Bool.not_false, if_false, if_true, Option.getD_some]
        exact ⟨hne, hchars⟩
    · exact ih (fun m2 hm2 => hinv m2 (List.mem_cons_of_mem _ hm2)) tok htok2

theorem attrLoop_eq_map (ms : List MatchRec) (hinv : ∀ m ∈ ms, MatchInv m) :
    attrLoop ms = ms.map specTokenOfMatch := by
  induction ms with
  | nil => rfl
  | cons m rest ih =>
    rw [attrLoop, List.map_cons, ih (fun m2 hm2 => hinv m2 (List.mem_cons_of_mem _ hm2))]
    congr 1
    rcases hinv m (List.mem_cons_self m rest) with
      ⟨hg1, hg2, _, _⟩ | ⟨content, hne, _, ⟨hg1, hg2⟩ | ⟨hg1, hg2⟩⟩
    · simp [pyTruthyStr, specTokenOfMatch, hg1, hg2]
    · have hf : content.isEmpty = false := List.isEmpty_eq_false.mpr hne
      simp [pyTruthyStr, specTokenOfMatch, hg1, hf]
    · have hf : content.isEmpty = false := List.isEmpty_eq_false.mpr hne
      simp [pyTruthyStr, specTokenOfMatch, hg1, hg2, hf]

/-- Claim C2: the attribute-token extractor returns exactly the substrings
matched left to right by the single pattern, alternatives tried in the
order camelCase, snake_case, single-quoted, double-quoted, with quoted
matches returned quote-stripped and identifier matches verbatim, in order
of appearance, without deduplication or case normalization; plus two
concrete evaluations exercising identifier and quoted forms. -/
theorem claim_C2_attr_tokens :
    (∀ text : List Char, _extract_attributes text = specAttrTokens text) ∧
    _extract_attributes (s2l "map employee_id to sAMAccountName") =
      [s2l "employee_id", s2l "sAMAccountName"] ∧
    _extract_attributes (s2l "map \x27uid\x27 to \x22cn\x22") =
      [s2l "uid", s2l "cn"] := by
  refine ⟨fun text => ?_, by decide, by decide⟩
  exact attrLoop_eq_map _ (scanAux_inv _ _ _)

/-- Claim C10: every string returned by the attribute-token extractor is
nonempty and consists only of ASCII letters, digits, underscore and dot;
in particular it contains no whitespace and no quote character. -/
theorem claim_C10_charset (text tok : List Char)
    (htok : tok ∈ _extract_attributes text) :
    tok ≠ [] ∧ ∀ c ∈ tok,
      (isLowerAsc c || isUpperAsc c || isDigitAsc c || c == '_' || c == '.') = true ∧
      c.isWhitespace = false ∧ c ≠ squote ∧ c ≠ dquote := by
  have base := attrLoop_mem (scanMatches text) (scanAux_inv _ _ _) tok htok
  refine ⟨base.1, fun c hc => ?_⟩
  have hqc := base.2 c hc
  obtain ⟨hw, hs, hd⟩ := qcontent_props hqc
  exact ⟨hqc, hw, hs, hd⟩

/-- Witness for claim C10: the token extracted from a concrete input
satisfies the character-set invariant. -/
theorem claim_C10_charset_witness :
    s2l "employee_id" ≠ [] ∧ ∀ c ∈ s2l "employee_id",
      (isLowerAsc c || isUpperAsc c || isDigitAsc c || c == '_' || c == '.') = true ∧
      c.isWhitespace = false ∧ c ≠ squote ∧ c ≠ dquote :=
  claim_C10_charset (s2l "use employee_id here") (s2l "employee_id") (by decide)

theorem chunkContaining_eq_find (i : Nat) (chunks : List NounChunk) :
    chunkContaining i chunks =
      Option.map (fun chunk => chunk.text) (chunks.find? (specChunkContains i)) := by
  induction chunks with
  | nil => rfl
  | cons ch rest ih =>
    by_cases h : i ≥ ch.start ∧ i < ch.stop
    · have hb : specChunkContains i ch = true := by
        simp only [specChunkContains, Bool.and_eq_true, decide_eq_true_eq]
        exact ⟨h.1, h.2⟩
      rw [chunkContaining, if_pos h, List.find?_cons_of_pos _ hb]
      rfl
    · have hb : ¬(specChunkContains i ch = true) := by
        simp only [specChunkContains, Bool.and_eq_true, decide_eq_true_eq]
        omega
      rw [chunkContaining, if_neg h, List.find?_cons_of_neg _ hb, ih]

/-- Claim C5: the application-name extractor returns, for the first token
in document order whose dependency role is "pobj" and whose head's text
lower-cases to one of the prepositions for/from/on, the full text of the
first noun chunk whose span contains that token's index, or the token's
own text if no chunk contains it; when no such token exists, the text of
the first noun chunk whose root's head lower-cases to a preposition in the
set; absent if neither pass matches.  It is a pure function of the
structure returning at most one name; the second conjunct evaluates it on
a concrete annotated structure. -/
theorem claim_C5_application :
    (∀ doc : Doc, _extract_application doc = specApplication doc) ∧
    _extract_application
      ⟨[⟨s2l "Directory", s2l "pobj", s2l "for", 2⟩],
       [⟨1, 3, s2l "Active Directory", s2l "for"⟩]⟩ =
      some (s2l "Active Directory") := by
  refine ⟨fun doc => ?_, by decide⟩
  unfold _extract_application specApplication
  have hpred : (fun token => token.dep == s2l "pobj" &&
      prepositions.any fun p => lower token.headText == p) = specIsPobjPrep := rfl
  rw [hpred]
  cases hf : doc.tokens.find? specIsPobjPrep with
  | some token =>
    dsimp only
    rw [chunkContaining_eq_find]
    cases doc.noun_chunks.find? (specChunkContains token.i) <;> rfl
  | none =>
    have hpred2 : (fun chunk : NounChunk =>
        prepositions.any fun p => lower chunk.rootHeadText == p) =
        (fun chunk : NounChunk => prepositions.contains (lower chunk.rootHeadText)) := by
      funext chunk
      rfl
    rw [hpred2]
    cases doc.noun_chunks.find?
      (fun chunk => prepositions.contains (lower chunk.rootHeadText)) <;> rfl

theorem snakeExt_fuel_irrelevant (fuel : Nat) : ∀ (fuel2 : Nat) (l : List Char),
    l.length ≤ fuel → l.length ≤ fuel2 → snakeExt fuel l = snakeExt fuel2 l := by
  induction fuel with
  | zero =>
    intro fuel2 l h1 h2
    have hl : l = [] := List.length_eq_zero.mp (Nat.le_zero.mp h1)
    subst hl
    cases fuel2 <;> rfl
  | succ f ih =>
    intro fuel2 l h1 h2
    cases l with
    | nil => cases fuel2 <;> rfl
    | cons c rest =>
      cases fuel2 with
      | zero => simp at h2
      | succ f2 =>
        simp only [List.length_cons] at h1 h2
        rw [snakeExt, snakeExt]
        by_cases h : (c == '_') = true
        · rw [if_pos h, if_pos h]
          by_cases hseg : (rest.takeWhile isLowerDigit).isEmpty = true
          · rw [if_pos hseg, if_pos hseg]
          · rw [if_neg hseg, if_neg hseg]
            have hd : (rest.dropWhile isLowerDigit).length ≤ rest.length :=
              length_dropWhile_le _ _
            rw [ih f2 (rest.dropWhile isLowerDigit) (by omega) (by omega)]
        · rw [if_neg h, if_neg h]

theorem scanAux_fuel_irrelevant (fuel : Nat) : ∀ (fuel2 : Nat) (prev : Option Char)
    (l : List Char), l.length ≤ fuel → l.length ≤ fuel2 →
    scanAux fuel prev l = scanAux fuel2 prev l := by
  induction fuel with
  | zero =>
    intro fuel2 prev l h1 h2
    have hl : l = [] := List.length_eq_zero.mp (Nat.le_zero.mp h1)
    subst hl
    cases fuel2 <;> rfl
  | succ f ih =>
    intro fuel2 prev l h1 h2
    cases l with
    | nil => cases fuel2 <;> rfl
    | cons c rest =>
      cases fuel2 with
      | zero => simp at h2
      | succ f2 =>
        simp only [List.length_cons] at h1 h2
        rw [scanAux, scanAux]
        cases hmt : matchAt prev (c :: rest) with
        | some pr =>
          obtain ⟨m, r⟩ := pr
          dsimp only
          have hlen := (matchAt_some hmt).2
          simp only [List.length_cons] at hlen
          rw [ih f2 _ r (by omega) (by omega)]
        | none =>
          dsimp only
          exact ih f2 (some c) rest (by omega) (by omega)

/-- The fuel `text.length` given to the scanner by `scanMatches` is always
sufficient: any larger fuel yields the same match list, so the fueled
scanner is a faithful model of the unbounded `finditer` loop. -/
theorem scanMatches_fuel_sufficient (text : List Char) (extra : Nat) :
    scanAux (text.length + extra) none text = scanMatches text :=
  scanAux_fuel_irrelevant (text.length + extra) text.length none text
    (by omega) (by omega)

end SailpointNLU
